import Mathlib

/-!
Verification of the YCITC/shared-workflow repository tooling scripts
(`tools/bump_version.py` and `tools/validate_commits.py`).

Strings of the Python source are modelled as `List Char`.  Python regex
matching with `re.IGNORECASE` is modelled by ASCII case folding via
`Char.toLower` / `Char.toUpper` (every input appearing in the scripts and in
the claims is ASCII).  Each definition mirrors one Python function; the
matchers resolve the regex backtracking explicitly, which is justified in the
accompanying comments.
-/

abbrev Msg := List Char

/-- Case-insensitive character equality, modelling `re.IGNORECASE` (ASCII). -/
def eqCI (a b : Char) : Bool := a.toLower = b.toLower

/-- Case-insensitive starts-with test for a literal pattern. -/
def isPrefixCI : List Char → List Char → Bool
  | [], _ => true
  | _ :: _, [] => false
  | p :: ps, c :: cs => eqCI p c && isPrefixCI ps cs

/-- Models Python `pat in s` (substring containment, case sensitive). -/
def containsSubstr (pat : List Char) : List Char → Bool
  | [] => pat.isEmpty
  | c :: rest => pat.isPrefixOf (c :: rest) || containsSubstr pat rest

/-- Models Python `s.upper()` (ASCII). -/
def upperStr (l : List Char) : List Char := l.map Char.toUpper

/-- The character class of the regex `\s` (ASCII part). -/
def isPySpace (c : Char) : Bool :=
  c = ' ' || c = '\t' || c = '\n' || c = '\r' || c = '\x0b' || c = '\x0c'

/-- Models Python `s.strip()` (ASCII whitespace). -/
def pyStrip (l : List Char) : List Char :=
  ((l.dropWhile isPySpace).reverse.dropWhile isPySpace).reverse

/-- Models Python `s.split(sep)` for a single-character separator. -/
def splitOnC (sep : Char) : List Char → List (List Char)
  | [] => [[]]
  | c :: cs =>
    if c = sep then [] :: splitOnC sep cs
    else
      match splitOnC sep cs with
      | [] => [[c]]
      | g :: gs => (c :: g) :: gs

/-- Models Python `'\n'.join(lines)`. -/
def joinNL : List (List Char) → List Char
  | [] => []
  | [l] => l
  | l :: ls => l ++ '\n' :: joinNL ls

/-- Models Python `list.insert(n, x)`: insert at index `n`, appending at the
end when `n` exceeds the length. -/
def insertPy (n : Nat) (x : α) : List α → List α
  | [] => [x]
  | a :: l =>
    match n with
    | 0 => x :: a :: l
    | n + 1 => a :: insertPy n x l

section Classifier

/-- Scanner for the regex tail `.*!:` — true iff the list decomposes as
`mid ++ !: ++ rest` with no newline in `mid` (`.` does not match newline). -/
def scanBangColon : List Char → Bool
  | [] => false
  | c :: rest =>
    if c = '\n' then false
    else if c = '!' ∧ rest.head? = some ':' then true
    else scanBangColon rest

/-- Models `re.match(r'^TY.*!:', m, re.IGNORECASE)` for a literal type `ty`. -/
def matchTypeBang (ty : List Char) (m : Msg) : Bool :=
  isPrefixCI ty m && scanBangColon (m.drop ty.length)

/-- Scanner for the regex tail `.+\):` inside `(\(.+\))?:` — true iff the list
decomposes as `mid ++ ): ++ rest` with `mid` nonempty and newline-free.  The
counter `n` records how many `.+` characters were already consumed. -/
def scanCloseParenColon : List Char → Nat → Bool
  | [], _ => false
  | c :: rest, n =>
    if c = '\n' then false
    else if c = ')' ∧ rest.head? = some ':' ∧ 1 ≤ n then true
    else scanCloseParenColon rest (n + 1)

/-- Models `re.match(r'^TY(\(.+\))?:', m, re.IGNORECASE)` for a literal type.
When the optional group is skipped the next character must be `:`; when the
character after the type is `(` the group must succeed, because on group
failure the regex falls back to requiring `:` at the `(` position, which is
impossible. -/
def matchFeatFix (ty : List Char) (m : Msg) : Bool :=
  isPrefixCI ty m &&
    (match m.drop ty.length with
     | [] => false
     | c :: r =>
       if c = ':' then true
       else if c = '(' then scanCloseParenColon r 0
       else false)

/-- One commit triggers the breaking tests of `analyze_commits`: the regex
list `['^BREAKING CHANGE:', '^feat.*!:', '^fix.*!:']` (IGNORECASE) or the
check `'BREAKING CHANGE' in commit.upper()`. -/
def breakingCommit (m : Msg) : Bool :=
  isPrefixCI ("BREAKING CHANGE:".toList) m
  || matchTypeBang ("feat".toList) m
  || matchTypeBang ("fix".toList) m
  || containsSubstr ("BREAKING CHANGE".toList) (upperStr m)

/-- One commit matches the feature/fix regex list
`['^feat(\(.+\))?:', '^fix(\(.+\))?:']` (IGNORECASE). -/
def featureFixCommit (m : Msg) : Bool :=
  matchFeatFix ("feat".toList) m || matchFeatFix ("fix".toList) m

/-- Result values of `analyze_commits` ('major' / 'minor' / 'none'). -/
inductive BumpKind
  | major
  | minor
  | none
deriving DecidableEq, Repr

/-- The loop of `analyze_commits`: `hasFF` is the `has_feature_or_fix` flag;
the first breaking commit breaks out of the loop with result 'major'. -/
def analyzeGo : List Msg → Bool → BumpKind
  | [], hasFF => if hasFF then .minor else .none
  | c :: cs, hasFF =>
    if breakingCommit c then .major
    else analyzeGo cs (hasFF || featureFixCommit c)

/-- Models `analyze_commits` of `tools/bump_version.py`. -/
def analyze_commits (cs : List Msg) : BumpKind := analyzeGo cs false

/-- The string name of a bump kind, as returned by `analyze_commits`. -/
def bumpName : BumpKind → List Char
  | .major => "major".toList
  | .minor => "minor".toList
  | .none => "none".toList

end Classifier

section VersionArithmetic

/-- The decimal digit character for `n < 10`. -/
def digitChar (n : Nat) : Char := Char.ofNat (48 + n)

/-- Fueled decimal rendering of a natural number (most significant first). -/
def natDigitsAux : Nat → Nat → List Char
  | 0, _ => []
  | fuel + 1, n =>
    if n < 10 then [digitChar n]
    else natDigitsAux fuel (n / 10) ++ [digitChar (n % 10)]

/-- The decimal digits of `n`, modelling Python `str(int)` / f-string
formatting of a non-negative int. -/
def natDigits (n : Nat) : List Char := natDigitsAux (n + 1) n

/-- The numeric value of a decimal digit character. -/
def digitVal (c : Char) : Nat := c.toNat - 48

/-- Value of a digit string, most significant first. -/
def digitsToNat (l : List Char) : Nat :=
  l.foldl (fun a c => a * 10 + digitVal c) 0

/-- Models Python `int(s)` restricted to strings of decimal digits.  Every
call site in `bump_version` first validates its input against the regex
`^\d+\.\d+$`, so the extra spellings `int` accepts (signs, surrounding
whitespace, underscores) are unreachable there. -/
def parseNatDigits (l : List Char) : Option Nat :=
  if l ≠ [] ∧ l.all Char.isDigit then some (digitsToNat l) else none

/-- Models `major, minor = map(int, current_version.split('.'))` — succeeds
exactly when the string splits on `.` into two digit groups. -/
def parseMajorMinor (s : List Char) : Option (Nat × Nat) :=
  match splitOnC '.' s with
  | [a, b] =>
    match parseNatDigits a, parseNatDigits b with
    | some x, some y => some (x, y)
    | _, _ => Option.none
  | _ => Option.none

/-- Models the f-string `f"{major}.{minor}"`. -/
def serializeVersion (M m : Nat) : List Char :=
  natDigits M ++ '.' :: natDigits m

/-- Models `bump_version` of `tools/bump_version.py`.  Python evaluates the
unpacking `major, minor = map(int, ...)` before any branch, so a string the
parse rejects raises (`Option.none`) for every bump type, including the
identity branch. -/
def bump_version (current : List Char) (ty : List Char) : Option (List Char) :=
  match parseMajorMinor current with
  | Option.none => Option.none
  | some (M, m) =>
    if ty = "major".toList then some (serializeVersion (M + 1) 0)
    else if ty = "minor".toList then some (serializeVersion M (m + 1))
    else some current

/-- The anchored shape `\d+\.\d+` at end of string: a maximal leading digit
run, a dot, then a nonempty digit run.  (`\d+` is greedy and `.` is not a
digit, so the maximal-run reading is exact.) -/
def matchesVersionCore (s : List Char) : Bool :=
  !(s.takeWhile Char.isDigit).isEmpty &&
    (match s.dropWhile Char.isDigit with
     | [] => false
     | c :: b => c = '.' && !b.isEmpty && b.all Char.isDigit)

/-- Models `re.match(r'^\d+\.\d+$', s)`: Python `$` also matches just before
one trailing newline. -/
def matchesVersionRe (s : List Char) : Bool :=
  matchesVersionCore s ||
    (s.getLast? = some '\n' && matchesVersionCore s.dropLast)

end VersionArithmetic


section Changelog

/-- The header substring `f"## [{new_version}]"` checked by
`update_changelog`. -/
def verHeader (v : List Char) : List Char :=
  "## [".toList ++ v ++ "]".toList

/-- The multi-line f-string `new_entry` of `update_changelog`. -/
def newEntry (v ty today : List Char) : List Char :=
  "## [".toList ++ v ++ "] - ".toList ++ today ++
    "\n\n### Added\n- Automated version bump (".toList ++ ty ++
    ")\n\n### Changed\n- See commit history for detailed changes\n\n---\n\n".toList

/-- The insertion-point loop of `update_changelog`: the first line index `i`
with `lines[i].strip() == '---' and i < 20`; the accumulator `k` is the index
of the head of the remaining lines. -/
def findSepGo (k : Nat) : List (List Char) → Option Nat
  | [] => Option.none
  | l :: ls =>
    if pyStrip l = "---".toList ∧ k < 20 then some k
    else findSepGo (k + 1) ls

/-- Models `update_changelog` of `tools/bump_version.py` as a pure function
from the changelog file content (`Option.none` = file absent) to the content
after the call.  A found separator at index `i` leads to
`lines.insert(i + 2, new_entry)` (`i + 2 ≥ 2` is always truthy in the Python
`if insert_index:` test); an absent file or a missing separator leaves the
content untouched, with only a diagnostic message. -/
def update_changelog (v ty today : List Char) :
    Option (List Char) → Option (List Char)
  | Option.none => Option.none
  | some content =>
    if containsSubstr (verHeader v) content then some content
    else
      let lines := splitOnC '\n' content
      match findSepGo 0 lines with
      | Option.none => some content
      | some i => some (joinNL (insertPy (i + 2) (newEntry v ty today) lines))

end Changelog

section MainModel

/-- The files `main` can touch: the VERSION file content and the CHANGELOG
content (`Option.none` = changelog file absent). -/
structure FS where
  version : List Char
  changelog : Option (List Char)
deriving DecidableEq, Repr

/-- Result of one run of `main`: exit 0 with the version printed to stdout,
or exit 1; each carries the file state left behind. -/
inductive Outcome
  | ok (fs : FS) (stdout : List Char)
  | fatal (fs : FS)
deriving DecidableEq, Repr

/-- Models the auto path of `main` in `tools/bump_version.py`
(`--type auto`, no `--manual`, no `--dry-run`, VERSION file present):
`read_current_version` (strip + validate, fatal before any write on bad
format), the empty-commit short-circuit, `analyze_commits`, `bump_version`,
the no-change short-circuit, then `write_version` (writes `newV ++ "\n"`),
`update_changelog`, and `run_version_sync`, whose subprocess failure
(`syncOk = false`) causes `sys.exit(1)` after both file writes.  A successful
or skipped sync is `syncOk = true`. -/
def mainAuto (fs : FS) (commits : List Msg) (today : List Char)
    (syncOk : Bool) : Outcome :=
  let current := pyStrip fs.version
  if matchesVersionRe current then
    if commits = [] ∨ commits = [[]] then .ok fs current
    else
      match bump_version current (bumpName (analyze_commits commits)) with
      | Option.none => .fatal fs
      | some newV =>
        if newV = current then .ok fs current
        else
          let fs2 : FS :=
            ⟨newV ++ ['\n'],
             update_changelog newV (bumpName (analyze_commits commits)) today
               fs.changelog⟩
          if syncOk then .ok fs2 newV else .fatal fs2
  else .fatal fs

end MainModel

section Validator

/-- Validation outcome labels of `is_conventional_commit`. -/
inductive Reason
  | merge
  | automated
  | conventional
  | invalidFormat
deriving DecidableEq, Repr

/-- The ten commit types of the validator regex, in alternation order. -/
def typeList : List (List Char) :=
  ["feat".toList, "fix".toList, "docs".toList, "style".toList,
   "refactor".toList, "perf".toList, "test".toList, "chore".toList,
   "build".toList, "ci".toList]

/-- The scope character class `[a-z0-9\-_]` under `re.IGNORECASE` (which
makes `a-z` also match `A-Z`). -/
def isScopeChar (c : Char) : Bool :=
  c.isAlpha || c.isDigit || c = '-' || c = '_'

/-- Resolves the type alternation
`(feat|fix|docs|style|refactor|perf|test|chore|build|ci)`: the first type
that is a case-insensitive prefix, with the rest of the message returned.
No two of the ten types are prefixes of each other, so at most one can match
a given message and trying them in order loses no backtracking options. -/
def findTypeRest (m : Msg) : List (List Char) → Option Msg
  | [] => Option.none
  | t :: ts => if isPrefixCI t m then some (m.drop t.length) else findTypeRest m ts

/-- The regex tail `:\s.{1,}`: a colon, one whitespace character, then at
least one non-newline character. -/
def colonTail : Msg → Bool
  | c0 :: w :: c :: _ => (c0 = ':') && isPySpace w && decide (c ≠ '\n')
  | _ => false

/-- The regex tail `(!)?:\s.{1,}`: an optional `!`, then `colonTail`. -/
def tailMatch (r : Msg) : Bool :=
  if r.head? = some '!' then colonTail (r.drop 1) else colonTail r

/-- The scope group and what follows, `[a-z0-9\-_]+\)` then the tail: the
class excludes `)`, so the greedy `+` run is the unique candidate split. -/
def scopeBlock (r : Msg) : Bool :=
  match r.dropWhile isScopeChar with
  | [] => false
  | d :: r3 =>
    !(r.takeWhile isScopeChar).isEmpty && (d = ')') && tailMatch r3

/-- Models
`re.match(r'^(feat|...|ci)(\([a-z0-9\-_]+\))?(!)?:\s.{1,}', m, re.IGNORECASE)`.
After the type, a `(` forces the scope group: on group failure the regex
would need `!` or `:` at the `(` position, which is impossible. -/
def convHeader (m : Msg) : Bool :=
  match findTypeRest m typeList with
  | Option.none => false
  | some rest =>
    match rest with
    | [] => false
    | c :: r => if c = '(' then scopeBlock r else tailMatch (c :: r)

/-- Models `is_conventional_commit` of `tools/validate_commits.py`. -/
def is_conventional_commit (m : Msg) : Bool × Reason :=
  if ("Merge ".toList).isPrefixOf m then (true, .merge)
  else if ("chore: bump version".toList).isPrefixOf m then (true, .automated)
  else if convHeader m then (true, .conventional)
  else (false, .invalidFormat)

end Validator


section SpecSide

/-- Declarative reading of the pattern `^TY.*!:` (IGNORECASE): the message
starts with the type and, after it, some newline-free span is followed by
`!:`. -/
def BangSpec (ty : List Char) (m : Msg) : Prop :=
  isPrefixCI ty m = true ∧
    ∃ mid rest, m.drop ty.length = mid ++ '!' :: ':' :: rest ∧ '\n' ∉ mid

/-- Declarative reading of the breaking tests of `analyze_commits`: prefix
`BREAKING CHANGE:` up to case, the `feat.*!:` / `fix.*!:` patterns, or the
substring `BREAKING CHANGE` after upper-casing. -/
def BreakingSpec (m : Msg) : Prop :=
  isPrefixCI ("BREAKING CHANGE:".toList) m = true
  ∨ BangSpec ("feat".toList) m
  ∨ BangSpec ("fix".toList) m
  ∨ ("BREAKING CHANGE".toList) <:+: upperStr m

/-- Declarative reading of the pattern `^TY(\(.+\))?:` (IGNORECASE): the type
followed directly by a colon, or by a parenthesized nonempty newline-free
segment and then a colon. -/
def FFSpec (ty : List Char) (m : Msg) : Prop :=
  isPrefixCI ty m = true ∧
    ((∃ rest, m.drop ty.length = ':' :: rest)
     ∨ ∃ mid rest, m.drop ty.length = '(' :: (mid ++ ')' :: ':' :: rest)
         ∧ mid ≠ [] ∧ '\n' ∉ mid)

/-- Declarative reading of the feature/fix regex pair of `analyze_commits`. -/
def FeatureFixSpec (m : Msg) : Prop :=
  FFSpec ("feat".toList) m ∨ FFSpec ("fix".toList) m

/-- Declarative reading of the validator regex tail `(!)?:\s.{1,}`. -/
def TailSpec (r : Msg) : Prop :=
  ∃ b w c rest, (b = [] ∨ b = ['!']) ∧ r = b ++ ':' :: w :: c :: rest
    ∧ isPySpace w = true ∧ c ≠ '\n'

/-- Declarative reading of the full validator pattern
`^(feat|...|ci)(\([a-z0-9\-_]+\))?(!)?:\s.{1,}` (IGNORECASE). -/
def ConvHeaderSpec (m : Msg) : Prop :=
  ∃ ty ∈ typeList, isPrefixCI ty m = true ∧
    (TailSpec (m.drop ty.length)
     ∨ ∃ s r3, m.drop ty.length = '(' :: (s ++ ')' :: r3) ∧ s ≠ []
         ∧ (∀ ch ∈ s, isScopeChar ch = true) ∧ TailSpec r3)

/-- Modelled from the claim's wording of C1: a breaking marker is the
case-insensitive prefix `BREAKING CHANGE:`, a conventional-commit header of
feat/fix type, optional parenthesized scope, and a trailing `!` directly
before the colon, or the substring `BREAKING CHANGE` anywhere
(case-insensitively). -/
def claimFeatFixBang (ty : List Char) (m : Msg) : Bool :=
  isPrefixCI ty m &&
    (match m.drop ty.length with
     | '!' :: ':' :: _ => true
     | '(' :: r =>
       (match r.takeWhile isScopeChar, r.dropWhile isScopeChar with
        | [], _ => false
        | _ :: _, ')' :: '!' :: ':' :: _ => true
        | _, _ => false)
     | _ => false)

/-- Modelled from the claim's wording of C1 (see `claimFeatFixBang`). -/
def claimBreakingMarker (m : Msg) : Bool :=
  isPrefixCI ("BREAKING CHANGE:".toList) m
  || claimFeatFixBang ("feat".toList) m
  || claimFeatFixBang ("fix".toList) m
  || containsSubstr ("BREAKING CHANGE".toList) (upperStr m)

/-- Modelled from the claim's wording of C5, tail part: optional `!`, then a
colon and a space followed by at least one character. -/
def claimTail (r : Msg) : Bool :=
  match (if r.head? = some '!' then r.drop 1 else r) with
  | ':' :: ' ' :: _ :: _ => true
  | _ => false

/-- Modelled from the claim's wording of C5: type from the fixed set, optional
parenthesized scope of letters/digits/hyphen/underscore, optional `!`, then a
colon and a space followed by at least one character. -/
def claimConvHeader (m : Msg) : Bool :=
  match findTypeRest m typeList with
  | Option.none => false
  | some rest =>
    match rest with
    | '(' :: r =>
      (match r.takeWhile isScopeChar, r.dropWhile isScopeChar with
       | [], _ => false
       | _ :: _, ')' :: r3 => claimTail r3
       | _, _ => false)
    | _ => claimTail rest

/-- Whether line `j` of the split changelog is a `---` separator line. -/
def sepAt (ls : List (List Char)) (j : Nat) : Bool :=
  match ls.get? j with
  | some l => pyStrip l = "---".toList
  | Option.none => false

/-- Claim wording for C7: `i` is the first separator line and lies within the
first 20 lines. -/
def FirstSep (ls : List (List Char)) (i : Nat) : Prop :=
  i < 20 ∧ sepAt ls i = true ∧ ∀ j < i, sepAt ls j = false

end SpecSide


section ScannerLemmas

theorem scanBangColon_iff (l : List Char) :
    scanBangColon l = true ↔
      ∃ mid rest, l = mid ++ '!' :: ':' :: rest ∧ '\n' ∉ mid := by
  induction l with
  | nil =>
    simp only [scanBangColon]
    constructor
    · intro h; cases h
    · rintro ⟨mid, rest, h, -⟩
      exact absurd h (by simp)
  | cons c cs ih =>
    simp only [scanBangColon]
    by_cases hnl : c = '\n'
    · subst hnl
      rw [if_pos rfl]
      constructor
      · intro h; cases h
      · rintro ⟨mid, rest, h, hmem⟩
        cases mid with
        | nil => simp at h
        | cons d mid =>
          simp only [List.cons_append, List.cons.injEq] at h
          exact absurd (h.1 ▸ List.mem_cons_self _ _) (fun hx => hmem (h.1 ▸ hx))
    · rw [if_neg hnl]
      by_cases hb : c = '!' ∧ cs.head? = some ':'
      · rw [if_pos hb]
        obtain ⟨hb1, hb2⟩ := hb
        subst hb1
        cases cs with
        | nil => simp at hb2
        | cons d cs' =>
          simp only [List.head?_cons, Option.some.injEq] at hb2
          subst hb2
          simp only [true_iff]
          exact ⟨[], cs', rfl, by simp⟩
      · rw [if_neg hb, ih]
        constructor
        · rintro ⟨mid, rest, h, hmem⟩
          exact ⟨c :: mid, rest, by simp [h], by
            intro hx
            rcases List.mem_cons.1 hx with h1 | h1
            · exact hnl h1.symm
            · exact hmem h1⟩
        · rintro ⟨mid, rest, h, hmem⟩
          cases mid with
          | nil =>
            simp only [List.nil_append, List.cons.injEq] at h
            exact absurd ⟨h.1, by simp [h.2]⟩ hb
          | cons d mid =>
            simp only [List.cons_append, List.cons.injEq] at h
            exact ⟨mid, rest, h.2, fun hx => hmem (List.mem_cons_of_mem _ hx)⟩

theorem containsSubstr_iff (p l : List Char) :
    containsSubstr p l = true ↔ p <:+: l := by
  induction l with
  | nil =>
    simp only [containsSubstr, List.isEmpty_iff]
    constructor
    · intro h; simp [h]
    · intro h
      simpa using List.eq_nil_of_sublist_nil h.sublist
  | cons c cs ih =>
    simp only [containsSubstr, Bool.or_eq_true, List.isPrefixOf_iff_prefix, ih]
    exact (List.infix_cons_iff).symm

theorem scanCloseParenColon_iff (l : List Char) (n : Nat) :
    scanCloseParenColon l n = true ↔
      ∃ mid rest, l = mid ++ ')' :: ':' :: rest ∧ 1 ≤ n + mid.length
        ∧ '\n' ∉ mid := by
  induction l generalizing n with
  | nil =>
    simp only [scanCloseParenColon]
    constructor
    · intro h; cases h
    · rintro ⟨mid, rest, h, -, -⟩
      exact absurd h (by simp)
  | cons c cs ih =>
    simp only [scanCloseParenColon]
    by_cases hnl : c = '\n'
    · subst hnl
      rw [if_pos rfl]
      constructor
      · intro h; cases h
      · rintro ⟨mid, rest, h, -, hmem⟩
        cases mid with
        | nil => simp at h
        | cons d mid =>
          simp only [List.cons_append, List.cons.injEq] at h
          exact absurd (h.1 ▸ List.mem_cons_self _ _) (fun hx => hmem (h.1 ▸ hx))
    · rw [if_neg hnl]
      by_cases hb : c = ')' ∧ cs.head? = some ':' ∧ 1 ≤ n
      · rw [if_pos hb]
        obtain ⟨hb1, hb2, hb3⟩ := hb
        subst hb1
        cases cs with
        | nil => simp at hb2
        | cons d cs' =>
          simp only [List.head?_cons, Option.some.injEq] at hb2
          subst hb2
          simp only [true_iff]
          exact ⟨[], cs', rfl, by simpa using hb3, by simp⟩
      · rw [if_neg hb, ih]
        constructor
        · rintro ⟨mid, rest, h, hn, hmem⟩
          refine ⟨c :: mid, rest, by simp [h], by simp; omega, ?_⟩
          intro hx
          rcases List.mem_cons.1 hx with h1 | h1
          · exact hnl h1.symm
          · exact hmem h1
        · rintro ⟨mid, rest, h, hn, hmem⟩
          cases mid with
          | nil =>
            simp only [List.nil_append, List.cons.injEq] at h
            simp only [List.length_nil, Nat.add_zero] at hn
            exact absurd ⟨h.1, by simp [h.2], hn⟩ hb
          | cons d mid =>
            simp only [List.cons_append, List.cons.injEq] at h
            refine ⟨mid, rest, h.2, by simp at hn ⊢; omega,
              fun hx => hmem (List.mem_cons_of_mem _ hx)⟩

theorem matchTypeBang_iff (ty : List Char) (m : Msg) :
    matchTypeBang ty m = true ↔ BangSpec ty m := by
  simp only [matchTypeBang, Bool.and_eq_true, BangSpec, scanBangColon_iff]

theorem breakingCommit_iff (m : Msg) :
    breakingCommit m = true ↔ BreakingSpec m := by
  simp only [breakingCommit, Bool.or_eq_true, BreakingSpec, matchTypeBang_iff,
    containsSubstr_iff]
  tauto

theorem matchFeatFix_iff (ty : List Char) (m : Msg) :
    matchFeatFix ty m = true ↔ FFSpec ty m := by
  simp only [matchFeatFix, Bool.and_eq_true, FFSpec]
  refine and_congr_right fun _ => ?_
  generalize m.drop ty.length = d
  cases d with
  | nil => simp
  | cons c r =>
    show (if c = ':' then true
          else if c = '(' then scanCloseParenColon r 0 else false) = true ↔ _
    by_cases hcolon : c = ':'
    · subst hcolon
      simp
    · rw [if_neg hcolon]
      by_cases hparen : c = '('
      · subst hparen
        rw [if_pos rfl, scanCloseParenColon_iff]
        constructor
        · rintro ⟨mid, rest, rfl, hl, hm⟩
          refine Or.inr ⟨mid, rest, rfl, ?_, hm⟩
          simpa using List.length_pos.1 (by omega)
        · rintro (⟨rest, h⟩ | ⟨mid, rest, h, hne, hm⟩)
          · cases h
          · simp only [List.cons.injEq, true_and] at h
            exact ⟨mid, rest, h, by
              have := List.length_pos.2 hne; omega, hm⟩
      · rw [if_neg hparen]
        constructor
        · intro hm
          cases hm
        · rintro (⟨rest, h⟩ | ⟨mid, rest, h, -, -⟩)
          · simp only [List.cons.injEq] at h
            exact absurd h.1 hcolon
          · simp only [List.cons.injEq] at h
            exact absurd h.1 hparen

theorem featureFixCommit_iff (m : Msg) :
    featureFixCommit m = true ↔ FeatureFixSpec m := by
  simp only [featureFixCommit, Bool.or_eq_true, FeatureFixSpec, matchFeatFix_iff]

end ScannerLemmas

section ClassifierLemmas

theorem analyzeGo_major_iff (cs : List Msg) (b : Bool) :
    analyzeGo cs b = .major ↔ ∃ c ∈ cs, breakingCommit c = true := by
  induction cs generalizing b with
  | nil => cases b <;> simp [analyzeGo]
  | cons c cs ih =>
    simp only [analyzeGo]
    by_cases h : breakingCommit c = true
    · simp only [if_pos h, List.mem_cons, true_iff]
      exact ⟨c, Or.inl rfl, h⟩
    · rw [if_neg h, ih]
      simp only [List.mem_cons]
      constructor
      · rintro ⟨d, hd, hbd⟩
        exact ⟨d, Or.inr hd, hbd⟩
      · rintro ⟨d, hd | hd, hbd⟩
        · exact absurd (hd ▸ hbd) h
        · exact ⟨d, hd, hbd⟩

theorem analyzeGo_minor_iff (cs : List Msg) (b : Bool)
    (h : ∀ c ∈ cs, breakingCommit c = false) :
    analyzeGo cs b = .minor ↔
      (b = true ∨ ∃ c ∈ cs, featureFixCommit c = true) := by
  induction cs generalizing b with
  | nil => cases b <;> simp [analyzeGo]
  | cons c cs ih =>
    have hc : breakingCommit c = false := h c (List.mem_cons_self _ _)
    simp only [analyzeGo, hc, Bool.false_eq_true, if_false]
    rw [ih (b || featureFixCommit c) (fun d hd => h d (List.mem_cons_of_mem _ hd))]
    simp only [Bool.or_eq_true, List.mem_cons]
    constructor
    · rintro ((hb | hf) | ⟨d, hd, hfd⟩)
      · exact Or.inl hb
      · exact Or.inr ⟨c, Or.inl rfl, hf⟩
      · exact Or.inr ⟨d, Or.inr hd, hfd⟩
    · rintro (hb | ⟨d, hd | hd, hfd⟩)
      · exact Or.inl (Or.inl hb)
      · exact Or.inl (Or.inr (hd ▸ hfd))
      · exact Or.inr ⟨d, hd, hfd⟩

end ClassifierLemmas

/-- Claim C1, counterexample: the commit `feature!: drop API` is classified
Major by `analyze_commits`, yet it is not a breaking marker in the claim's
sense — it is not a `BREAKING CHANGE:` prefix, not a feat/fix header with
optional scope and a trailing `!` before the colon (its type word is
`feature`), and contains no `BREAKING CHANGE` substring.  So `classify cs =
Major ↔ some commit of cs matches a claim breaking marker` fails at
`cs = [feature!: drop API]`. -/
theorem c1_counterexample :
    analyze_commits ["feature!: drop API".toList] = .major
      ∧ claimBreakingMarker ("feature!: drop API".toList) = false := by
  decide

/-- Claim C1 (amended): `analyze_commits` returns Major iff some commit
matches a breaking test of the code: the case-insensitive prefix
`BREAKING CHANGE:`, or the pattern `feat.*!:` / `fix.*!:` — a feat/fix start
(case-insensitive) with `!` directly followed by `:` anywhere later on the
line — or the substring `BREAKING CHANGE` anywhere case-insensitively.
Scanning stops at the first breaking match (the existential is insensitive to
anything after it). -/
theorem c1_analyze_major_iff_breaking (cs : List Msg) :
    analyze_commits cs = .major ↔ ∃ c ∈ cs, BreakingSpec c := by
  rw [analyze_commits, analyzeGo_major_iff]
  exact exists_congr fun c => and_congr_right fun _ => breakingCommit_iff c

/-- Witness for C1's theorem at a concrete commit list. -/
theorem c1_witness :
    analyze_commits ["docs: d".toList, "feat(core)!: drop".toList] = .major :=
  (c1_analyze_major_iff_breaking
      ["docs: d".toList, "feat(core)!: drop".toList]).2
    ⟨"feat(core)!: drop".toList, by simp,
     (breakingCommit_iff ("feat(core)!: drop".toList)).1 (by decide)⟩

/-- Claim C2, counterexample: the sequence `[feat oops!: x, feat: y]`
contains no breaking marker in the claim's sense, and `feat: y` matches the
feature/fix pattern, yet `analyze_commits` returns Major (the code's
`feat.*!:` test fires on `feat oops!: x`), not Minor.  So the claimed
equivalence fails on this sequence. -/
theorem c2_counterexample :
    analyze_commits ["feat oops!: x".toList, "feat: y".toList] = .major
      ∧ claimBreakingMarker ("feat oops!: x".toList) = false
      ∧ claimBreakingMarker ("feat: y".toList) = false
      ∧ featureFixCommit ("feat: y".toList) = true := by
  decide

/-- Claim C2 (amended): for every sequence none of whose commits satisfies
the code's breaking test (`BreakingSpec`), `analyze_commits` returns Minor
iff some commit matches `feat(optional-scope):` / `fix(optional-scope):`
case-insensitively (the scope being any nonempty newline-free parenthesized
segment, and no `!` is possible before the colon in this pattern); and
whenever any commit satisfies the breaking test, the result is Major
regardless of the commit order. -/
theorem c2_minor_iff_feature (cs : List Msg) :
    ((∀ c ∈ cs, ¬ BreakingSpec c) →
      (analyze_commits cs = .minor ↔ ∃ c ∈ cs, FeatureFixSpec c))
    ∧ ∀ pre c post, BreakingSpec c →
        analyze_commits (pre ++ c :: post) = .major := by
  constructor
  · intro h
    rw [analyze_commits, analyzeGo_minor_iff cs false (fun c hc => by
      rcases Bool.eq_false_or_eq_true (breakingCommit c) with hb | hb
      · exact absurd ((breakingCommit_iff c).1 hb) (h c hc)
      · exact hb)]
    simp only [Bool.false_eq_true, false_or]
    exact exists_congr fun c => and_congr_right fun _ => featureFixCommit_iff c
  · intro pre c post hb
    rw [analyze_commits, analyzeGo_major_iff]
    exact ⟨c, by simp, (breakingCommit_iff c).2 hb⟩

/-- Witness for C2's theorem at a concrete commit list. -/
theorem c2_witness :
    analyze_commits ["docs: a".toList, "feat: b".toList] = .minor :=
  ((c2_minor_iff_feature ["docs: a".toList, "feat: b".toList]).1
    (fun c hc hB => by
      have hb := (breakingCommit_iff c).2 hB
      rcases List.mem_cons.1 hc with rfl | hc2
      · exact absurd hb (by decide)
      · rcases List.mem_cons.1 hc2 with rfl | hc3
        · exact absurd hb (by decide)
        · cases hc3)).2
    ⟨"feat: b".toList, by simp,
     (featureFixCommit_iff ("feat: b".toList)).1 (by decide)⟩

section DigitLemmas

theorem natDigitsAux_fuel_irrel (n : Nat) :
    ∀ f1 f2, n < f1 → n < f2 → natDigitsAux f1 n = natDigitsAux f2 n := by
  induction n using Nat.strong_induction_on with
  | _ n ih =>
    intro f1 f2 h1 h2
    match f1, f2 with
    | g1 + 1, g2 + 1 =>
      simp only [natDigitsAux]
      by_cases hlt : n < 10
      · simp [hlt]
      · rw [if_neg hlt, if_neg hlt]
        have hd : n / 10 < n := Nat.div_lt_self (by omega) (by omega)
        rw [ih (n / 10) hd g1 g2 (by omega) (by omega)]

theorem natDigits_eq (n : Nat) :
    natDigits n =
      if n < 10 then [digitChar n]
      else natDigits (n / 10) ++ [digitChar (n % 10)] := by
  show natDigitsAux (n + 1) n = _
  simp only [natDigitsAux]
  by_cases hlt : n < 10
  · simp [hlt]
  · rw [if_neg hlt, if_neg hlt]
    have hd : n / 10 < n := Nat.div_lt_self (by omega) (by omega)
    rw [natDigitsAux_fuel_irrel (n / 10) n (n / 10 + 1) (by omega) (by omega)]
    rfl

theorem digitChar_spec : ∀ k, k < 10 →
    (digitChar k).isDigit = true ∧ digitVal (digitChar k) = k
      ∧ digitChar k ≠ '.' ∧ digitChar k ≠ '\n' := by
  decide

theorem natDigits_ne_nil (n : Nat) : natDigits n ≠ [] := by
  rw [natDigits_eq]
  by_cases hlt : n < 10 <;> simp [hlt]

theorem natDigits_all_digit (n : Nat) :
    ∀ c ∈ natDigits n, c.isDigit = true := by
  induction n using Nat.strong_induction_on with
  | _ n ih =>
    rw [natDigits_eq]
    by_cases hlt : n < 10
    · rw [if_pos hlt]
      intro c hc
      rw [List.mem_singleton.1 hc]
      exact (digitChar_spec n hlt).1
    · rw [if_neg hlt]
      intro c hc
      rcases List.mem_append.1 hc with h | h
      · exact ih (n / 10) (Nat.div_lt_self (by omega) (by omega)) c h
      · rw [List.mem_singleton.1 h]
        exact (digitChar_spec (n % 10) (Nat.mod_lt _ (by omega))).1

theorem digitsToNat_append_last (l : List Char) (c : Char) :
    digitsToNat (l ++ [c]) = digitsToNat l * 10 + digitVal c := by
  simp [digitsToNat, List.foldl_append]

theorem digitsToNat_natDigits (n : Nat) : digitsToNat (natDigits n) = n := by
  induction n using Nat.strong_induction_on with
  | _ n ih =>
    rw [natDigits_eq]
    by_cases hlt : n < 10
    · rw [if_pos hlt]
      show digitsToNat [digitChar n] = n
      simp [digitsToNat, (digitChar_spec n hlt).2.1]
    · rw [if_neg hlt, digitsToNat_append_last,
        ih (n / 10) (Nat.div_lt_self (by omega) (by omega)),
        (digitChar_spec (n % 10) (Nat.mod_lt _ (by omega))).2.1]
      omega

theorem dot_not_mem_natDigits (n : Nat) : '.' ∉ natDigits n := by
  intro h
  have := natDigits_all_digit n '.' h
  simp at this

theorem parseNatDigits_natDigits (n : Nat) :
    parseNatDigits (natDigits n) = some n := by
  rw [parseNatDigits, if_pos ⟨natDigits_ne_nil n, List.all_eq_true.2
    (natDigits_all_digit n)⟩, digitsToNat_natDigits]

end DigitLemmas

section SplitLemmas

theorem splitOnC_no_sep (sep : Char) (l : List Char) (h : sep ∉ l) :
    splitOnC sep l = [l] := by
  induction l with
  | nil => rfl
  | cons c cs ih =>
    have hc : ¬ c = sep := fun hx => h (hx ▸ List.mem_cons_self _ _)
    rw [splitOnC, if_neg hc, ih (fun hx => h (List.mem_cons_of_mem _ hx))]

theorem splitOnC_append_sep (sep : Char) (a b : List Char) (h : sep ∉ a) :
    splitOnC sep (a ++ sep :: b) = a :: splitOnC sep b := by
  induction a with
  | nil => simp [splitOnC]
  | cons c cs ih =>
    have hc : ¬ c = sep := fun hx => h (hx ▸ List.mem_cons_self _ _)
    rw [List.cons_append, splitOnC, if_neg hc,
      ih (fun hx => h (List.mem_cons_of_mem _ hx))]

theorem parseMajorMinor_serialize (M m : Nat) :
    parseMajorMinor (serializeVersion M m) = some (M, m) := by
  rw [parseMajorMinor, serializeVersion,
    splitOnC_append_sep '.' (natDigits M) (natDigits m) (dot_not_mem_natDigits M),
    splitOnC_no_sep '.' (natDigits m) (dot_not_mem_natDigits m)]
  simp [parseNatDigits_natDigits]

theorem takeWhile_dropWhile_append_not (p : Char → Bool) (a : List Char)
    (x : Char) (b : List Char) (ha : ∀ c ∈ a, p c = true) (hx : p x = false) :
    (a ++ x :: b).takeWhile p = a ∧ (a ++ x :: b).dropWhile p = x :: b := by
  induction a with
  | nil =>
    simp only [List.nil_append]
    exact ⟨List.takeWhile_cons_of_neg (by simp [hx]),
      List.dropWhile_cons_of_neg (by simp [hx])⟩
  | cons c cs ih =>
    have hc := ha c (List.mem_cons_self _ _)
    obtain ⟨ih1, ih2⟩ := ih (fun d hd => ha d (List.mem_cons_of_mem _ hd))
    constructor
    · rw [List.cons_append, List.takeWhile_cons_of_pos hc, ih1]
    · rw [List.cons_append, List.dropWhile_cons_of_pos hc, ih2]

theorem matchesVersionCore_intro (a b : List Char) (ha : a ≠ []) (hb : b ≠ [])
    (hda : ∀ c ∈ a, c.isDigit = true) (hdb : ∀ c ∈ b, c.isDigit = true) :
    matchesVersionCore (a ++ '.' :: b) = true := by
  obtain ⟨h1, h2⟩ :=
    takeWhile_dropWhile_append_not Char.isDigit a '.' b hda (by decide)
  rw [matchesVersionCore, h1, h2]
  simp only [Bool.and_eq_true, Bool.not_eq_true', List.isEmpty_eq_false]
  exact ⟨ha, ⟨by decide, hb⟩, List.all_eq_true.2 hdb⟩

theorem matchesVersionCore_elim (s : List Char)
    (h : matchesVersionCore s = true) :
    ∃ a b, s = a ++ '.' :: b ∧ a ≠ [] ∧ b ≠ []
      ∧ (∀ c ∈ a, c.isDigit = true) ∧ (∀ c ∈ b, c.isDigit = true) := by
  rw [matchesVersionCore] at h
  simp only [Bool.and_eq_true, Bool.not_eq_true', List.isEmpty_eq_false] at h
  obtain ⟨hne, hmatch⟩ := h
  cases hd : s.dropWhile Char.isDigit with
  | nil => rw [hd] at hmatch; cases hmatch
  | cons x d =>
    rw [hd] at hmatch
    simp only [Bool.and_eq_true, decide_eq_true_eq, Bool.not_eq_true',
      List.isEmpty_eq_false, List.all_eq_true] at hmatch
    obtain ⟨⟨hx, hdne⟩, hdig⟩ := hmatch
    subst hx
    refine ⟨s.takeWhile Char.isDigit, d, ?_, hne, hdne,
      fun c hc => List.mem_takeWhile_imp hc, hdig⟩
    rw [← hd, List.takeWhile_append_dropWhile]

theorem parseMajorMinor_of_core (a b : List Char) (ha : a ≠ []) (hb : b ≠ [])
    (hda : ∀ c ∈ a, c.isDigit = true) (hdb : ∀ c ∈ b, c.isDigit = true) :
    parseMajorMinor (a ++ '.' :: b) = some (digitsToNat a, digitsToNat b) := by
  have hdota : '.' ∉ a := fun hx => by
    have := hda '.' hx
    simp at this
  have hdotb : '.' ∉ b := fun hx => by
    have := hdb '.' hx
    simp at this
  rw [parseMajorMinor, splitOnC_append_sep '.' a b hdota,
    splitOnC_no_sep '.' b hdotb]
  simp only [parseNatDigits]
  rw [if_pos ⟨ha, List.all_eq_true.2 hda⟩, if_pos ⟨hb, List.all_eq_true.2 hdb⟩]

end SplitLemmas

/-- Claim C3: on a serialized version of any pair of naturals, `bump_version`
with kind 'major' yields `(major+1, 0)`, with 'minor' yields
`(major, minor+1)`, and with 'none' returns the input unchanged; in
particular the `3.7` cases of the spec hold. -/
theorem c3_bump_arithmetic (M m : Nat) :
    bump_version (serializeVersion M m) ("major".toList)
        = some (serializeVersion (M + 1) 0)
      ∧ bump_version (serializeVersion M m) ("minor".toList)
        = some (serializeVersion M (m + 1))
      ∧ bump_version (serializeVersion M m) ("none".toList)
        = some (serializeVersion M m)
      ∧ bump_version ("3.7".toList) ("major".toList) = some ("4.0".toList)
      ∧ bump_version ("3.7".toList) ("minor".toList) = some ("3.8".toList)
      ∧ bump_version ("3.7".toList) ("none".toList) = some ("3.7".toList) := by
  refine ⟨?_, ?_, ?_, by decide, by decide, by decide⟩
  · rw [bump_version, parseMajorMinor_serialize]
    rfl
  · rw [bump_version, parseMajorMinor_serialize]
    rfl
  · rw [bump_version, parseMajorMinor_serialize]
    rfl

/-- Claim C8: parsing the serialized form `{major}.{minor}` recovers the
version exactly — `parse(serialize(v)) == v` for every pair of naturals. -/
theorem c8_parse_serialize_roundtrip (M m : Nat) :
    parseMajorMinor (serializeVersion M m) = some (M, m) :=
  parseMajorMinor_serialize M m

/-- Claim C9: on any current-version string of shape digits-dot-digits and
any bump-type string (including kinds other than 'major'/'minor' such as
'manual' or 'none'), `bump_version` succeeds, its result again has shape
digits-dot-digits, and every kind other than 'major'/'minor' returns the
input string unchanged. -/
theorem c9_bump_total_and_shaped (s ty : List Char)
    (h : matchesVersionCore s = true) :
    ∃ r, bump_version s ty = some r ∧ matchesVersionCore r = true
      ∧ (ty ≠ "major".toList → ty ≠ "minor".toList → r = s) := by
  obtain ⟨a, b, rfl, ha, hb, hda, hdb⟩ := matchesVersionCore_elim _ h
  simp only [bump_version, parseMajorMinor_of_core a b ha hb hda hdb]
  by_cases h1 : ty = "major".toList
  · refine ⟨serializeVersion (digitsToNat a + 1) 0, ?_, ?_, ?_⟩
    · rw [if_pos h1]
    · exact matchesVersionCore_intro _ _ (natDigits_ne_nil _)
        (natDigits_ne_nil _) (natDigits_all_digit _) (natDigits_all_digit _)
    · intro hc
      exact absurd h1 hc
  · by_cases h2 : ty = "minor".toList
    · refine ⟨serializeVersion (digitsToNat a) (digitsToNat b + 1), ?_, ?_, ?_⟩
      · rw [if_neg h1, if_pos h2]
      · exact matchesVersionCore_intro _ _ (natDigits_ne_nil _)
          (natDigits_ne_nil _) (natDigits_all_digit _) (natDigits_all_digit _)
      · intro _ hc
        exact absurd h2 hc
    · exact ⟨a ++ '.' :: b, by rw [if_neg h1, if_neg h2],
        matchesVersionCore_intro a b ha hb hda hdb, fun _ _ => rfl⟩

/-- Witness for C9's theorem: a bump type that is neither 'major' nor 'minor'
succeeds and returns the well-formed input unchanged. -/
theorem c9_witness :
    ∃ r, bump_version ("3.7".toList) ("manual".toList) = some r
      ∧ matchesVersionCore r = true
      ∧ ("manual".toList ≠ "major".toList → "manual".toList ≠ "minor".toList
          → r = "3.7".toList) :=
  c9_bump_total_and_shaped ("3.7".toList) ("manual".toList) (by decide)

/-- Claim C6: `analyze_commits` yields None on the empty sequence and on the
sequence holding one empty string, and in both cases `main` short-circuits
before bumping: the file state is unchanged, the current version is printed,
and the process exits successfully. -/
theorem c6_empty_short_circuit (fs : FS) (today : List Char) (syncOk : Bool)
    (h : matchesVersionRe (pyStrip fs.version) = true) :
    analyze_commits [] = .none ∧ analyze_commits [[]] = .none
      ∧ mainAuto fs [] today syncOk = .ok fs (pyStrip fs.version)
      ∧ mainAuto fs [[]] today syncOk = .ok fs (pyStrip fs.version) := by
  refine ⟨rfl, by decide, ?_, ?_⟩
  · simp only [mainAuto]
    rw [if_pos h]
    simp
  · simp only [mainAuto]
    rw [if_pos h]
    simp

/-- Witness for C6's theorem on a concrete file state. -/
theorem c6_witness :
    analyze_commits [] = .none ∧ analyze_commits [[]] = .none
      ∧ mainAuto ⟨"3.7\n".toList, Option.none⟩ [] ("2025-01-01".toList) true
          = .ok ⟨"3.7\n".toList, Option.none⟩ (pyStrip ("3.7\n".toList))
      ∧ mainAuto ⟨"3.7\n".toList, Option.none⟩ [[]] ("2025-01-01".toList) true
          = .ok ⟨"3.7\n".toList, Option.none⟩ (pyStrip ("3.7\n".toList)) :=
  c6_empty_short_circuit ⟨"3.7\n".toList, Option.none⟩ ("2025-01-01".toList)
    true (by decide)

theorem bump_version_total (s ty : List Char) (p : Nat × Nat)
    (h : parseMajorMinor s = some p) :
    ∃ v, bump_version s ty = some v := by
  obtain ⟨M, m⟩ := p
  simp only [bump_version, h]
  by_cases e1 : ty = "major".toList
  · exact ⟨_, by rw [if_pos e1]⟩
  · by_cases e2 : ty = "minor".toList
    · exact ⟨_, by rw [if_neg e1, if_pos e2]⟩
    · exact ⟨_, by rw [if_neg e1, if_neg e2]⟩

/-- Claim C4, counterexample: with a well-formed VERSION file `3.7`, a
feature commit, and a failing sync step, the run exits non-zero with the
VERSION file already rewritten to `3.8` — the version file is mutated while
the sync has not propagated, contradicting the claimed consistent-state
guarantee for fatal exits. -/
theorem c4_counterexample :
    mainAuto ⟨"3.7\n".toList, Option.none⟩ ["feat: x".toList]
        ("2025-06-01".toList) false
      = .fatal ⟨"3.8\n".toList, Option.none⟩
    ∧ ("3.8\n".toList ≠ "3.7\n".toList) := by
  decide

/-- Claim C4 (amended): a malformed version string is fatal before any write,
leaving the file state untouched; but a sync-step failure exits non-zero
only after the VERSION file has been rewritten to the new version (with
trailing newline) and the changelog has been processed — those writes are
not rolled back. -/
theorem c4_fatal_exit_states (fs : FS) (commits : List Msg)
    (today : List Char) :
    (matchesVersionRe (pyStrip fs.version) = false →
      ∀ syncOk, mainAuto fs commits today syncOk = .fatal fs)
    ∧ (matchesVersionCore (pyStrip fs.version) = true →
        (∃ out, mainAuto fs commits today false = .ok fs out)
        ∨ (∃ newV, newV ≠ pyStrip fs.version
            ∧ mainAuto fs commits today false =
              .fatal ⟨newV ++ ['\n'],
                update_changelog newV (bumpName (analyze_commits commits))
                  today fs.changelog⟩)) := by
  constructor
  · intro h syncOk
    simp only [mainAuto]
    rw [if_neg (by rw [h]; exact Bool.false_ne_true)]
  · intro h
    have hre : matchesVersionRe (pyStrip fs.version) = true := by
      rw [matchesVersionRe, h, Bool.true_or]
    simp only [mainAuto]
    rw [if_pos hre]
    by_cases hc : commits = [] ∨ commits = [[]]
    · rw [if_pos hc]
      exact Or.inl ⟨_, rfl⟩
    · rw [if_neg hc]
      obtain ⟨a, b, hs, ha, hb, hda, hdb⟩ := matchesVersionCore_elim _ h
      obtain ⟨newV, hnv⟩ :=
        bump_version_total (pyStrip fs.version)
          (bumpName (analyze_commits commits)) (digitsToNat a, digitsToNat b)
          (by rw [hs]; exact parseMajorMinor_of_core a b ha hb hda hdb)
      simp only [hnv]
      by_cases heq : newV = pyStrip fs.version
      · rw [if_pos heq]
        exact Or.inl ⟨_, rfl⟩
      · rw [if_neg heq]
        rw [if_neg (by exact Bool.false_ne_true)]
        exact Or.inr ⟨newV, heq, rfl⟩

/-- Witness for C4's theorem: a malformed VERSION file is fatal with the file
state untouched. -/
theorem c4_witness :
    mainAuto ⟨"junk".toList, Option.none⟩ [] ("2025-06-01".toList) true
      = .fatal ⟨"junk".toList, Option.none⟩ :=
  (c4_fatal_exit_states ⟨"junk".toList, Option.none⟩ [] ("2025-06-01".toList)).1
    (by decide) true

section ChangelogLemmas

theorem findSepGo_of_first (ls : List (List Char)) :
    ∀ i k, k + i < 20 → sepAt ls i = true →
      (∀ j < i, sepAt ls j = false) → findSepGo k ls = some (k + i) := by
  induction ls with
  | nil =>
    intro i k _ hsep _
    simp [sepAt] at hsep
  | cons l ls ih =>
    intro i k hlt hsep hfirst
    cases i with
    | zero =>
      have hl : pyStrip l = "---".toList := by
        simpa [sepAt] using hsep
      rw [findSepGo, if_pos ⟨hl, by omega⟩]
      rfl
    | succ i =>
      have h0 : ¬ (pyStrip l = "---".toList) := by
        have := hfirst 0 (Nat.succ_pos _)
        simpa [sepAt] using this
      rw [findSepGo, if_neg (fun hx => h0 hx.1)]
      have hsep2 : sepAt ls i = true := by
        simpa [sepAt] using hsep
      have hfirst2 : ∀ j < i, sepAt ls j = false := by
        intro j hj
        have := hfirst (j + 1) (by omega)
        simpa [sepAt] using this
      rw [ih i (k + 1) (by omega) hsep2 hfirst2]
      congr 1
      omega

theorem newEntry_decomp (v ty today : List Char) :
    newEntry v ty today = verHeader v ++ (" - ".toList ++ today ++
      "\n\n### Added\n- Automated version bump (".toList ++ ty ++
      ")\n\n### Changed\n- See commit history for detailed changes\n\n---\n\n".toList) := by
  have h : ("] - ".toList : List Char) = "]".toList ++ " - ".toList := by decide
  simp [newEntry, verHeader, h, List.append_assoc]

theorem mem_insertPy (x : α) (n : Nat) (l : List α) : x ∈ insertPy n x l := by
  induction l generalizing n with
  | nil => simp [insertPy]
  | cons a l ih =>
    cases n with
    | zero => simp [insertPy]
    | succ n =>
      simp only [insertPy, List.mem_cons]
      exact Or.inr (ih n)

theorem infix_joinNL_of_mem (x : List Char) (ls : List (List Char))
    (h : x ∈ ls) : x <:+: joinNL ls := by
  induction ls with
  | nil => cases h
  | cons l ls ih =>
    rcases List.mem_cons.1 h with rfl | h2
    · cases ls with
      | nil => exact List.infix_refl _
      | cons m ms => exact ⟨[], '\n' :: joinNL (m :: ms), by simp [joinNL]⟩
    · cases ls with
      | nil => cases h2
      | cons m ms =>
        have hsfx : joinNL (m :: ms) <:+ joinNL (l :: m :: ms) :=
          ⟨l ++ ['\n'], by simp [joinNL]⟩
        exact (ih h2).trans hsfx.isInfix

theorem contains_verHeader_insert (v ty today : List Char) (n : Nat)
    (ls : List (List Char)) :
    containsSubstr (verHeader v)
      (joinNL (insertPy n (newEntry v ty today) ls)) = true := by
  apply (containsSubstr_iff _ _).2
  have hpre : verHeader v <+: newEntry v ty today :=
    ⟨_, (newEntry_decomp v ty today).symm⟩
  exact hpre.isInfix.trans
    (infix_joinNL_of_mem _ _ (mem_insertPy _ n ls))

end ChangelogLemmas

/-- Claim C7, counterexample: on the changelog
`# Log\n---\n\n## [1.0] - 2025-01-01\nold` (separator at line index 1), the
new section is inserted at line index 3 — after the separator line and the
blank line following it — not immediately following the separator line
(index 2), and the two placements give different contents. -/
theorem c7_counterexample :
    update_changelog ("2.0".toList) ("minor".toList) ("2025-06-01".toList)
        (some ("# Log\n---\n\n## [1.0] - 2025-01-01\nold".toList))
      = some (joinNL (insertPy 3
          (newEntry ("2.0".toList) ("minor".toList) ("2025-06-01".toList))
          (splitOnC '\n' ("# Log\n---\n\n## [1.0] - 2025-01-01\nold".toList))))
    ∧ joinNL (insertPy 3
          (newEntry ("2.0".toList) ("minor".toList) ("2025-06-01".toList))
          (splitOnC '\n' ("# Log\n---\n\n## [1.0] - 2025-01-01\nold".toList)))
      ≠ joinNL (insertPy 2
          (newEntry ("2.0".toList) ("minor".toList) ("2025-06-01".toList))
          (splitOnC '\n' ("# Log\n---\n\n## [1.0] - 2025-01-01\nold".toList))) := by
  decide

/-- Claim C7 (amended): when the changelog exists, does not already contain
the `## [v]` header, and its first separator line (stripped content `---`)
within the first 20 lines is at index `i`, the new dated section is inserted
at line index `i + 2` — after the separator line and the single line
following it, not immediately after the separator; an absent changelog file
is skipped and is not fatal. -/
theorem c7_insert_after_separator (v ty today content : List Char) (i : Nat)
    (hnot : containsSubstr (verHeader v) content = false)
    (hfs : FirstSep (splitOnC '\n' content) i) :
    update_changelog v ty today (some content)
      = some (joinNL (insertPy (i + 2) (newEntry v ty today)
          (splitOnC '\n' content)))
    ∧ update_changelog v ty today Option.none = Option.none := by
  obtain ⟨h20, hsep, hfirst⟩ := hfs
  refine ⟨?_, rfl⟩
  have hgo : findSepGo 0 (splitOnC '\n' content) = some i := by
    have := findSepGo_of_first (splitOnC '\n' content) i 0 (by omega) hsep hfirst
    simpa using this
  simp only [update_changelog, hnot, Bool.false_eq_true, if_false, hgo]

/-- Witness for C7's theorem on a concrete changelog. -/
theorem c7_witness :
    update_changelog ("4.0".toList) ("major".toList) ("2025-06-01".toList)
        (some ("# Changelog\n\n---\n\nbody".toList))
      = some (joinNL (insertPy 4
          (newEntry ("4.0".toList) ("major".toList) ("2025-06-01".toList))
          (splitOnC '\n' ("# Changelog\n\n---\n\nbody".toList)))) :=
  (c7_insert_after_separator ("4.0".toList) ("major".toList)
    ("2025-06-01".toList) ("# Changelog\n\n---\n\nbody".toList) 2
    (by decide) ⟨by omega, by decide, by decide⟩).1

/-- Claim C10: if the changelog already contains the `## [v]` header the file
is left unchanged, and `update_changelog` is idempotent: applying it twice
(same version, bump type and date) equals applying it once. -/
theorem c10_changelog_idempotent (v ty today : List Char)
    (cl : Option (List Char)) :
    (∀ content, cl = some content →
        containsSubstr (verHeader v) content = true →
        update_changelog v ty today cl = cl)
    ∧ update_changelog v ty today (update_changelog v ty today cl)
        = update_changelog v ty today cl := by
  constructor
  · rintro content rfl h
    simp only [update_changelog, h, if_true]
  · cases cl with
    | none => rfl
    | some content =>
      by_cases h : containsSubstr (verHeader v) content = true
      · have h1 : update_changelog v ty today (some content) = some content := by
          simp only [update_changelog, h, if_true]
        rw [h1, h1]
      · have hfalse : containsSubstr (verHeader v) content = false :=
          Bool.eq_false_iff.2 h
        cases hsep : findSepGo 0 (splitOnC '\n' content) with
        | none =>
          have h1 : update_changelog v ty today (some content) = some content := by
            simp only [update_changelog, hfalse, Bool.false_eq_true, if_false,
              hsep]
          rw [h1, h1]
        | some i =>
          have h1 : update_changelog v ty today (some content)
              = some (joinNL (insertPy (i + 2) (newEntry v ty today)
                  (splitOnC '\n' content))) := by
            simp only [update_changelog, hfalse, Bool.false_eq_true, if_false,
              hsep]
          rw [h1]
          simp only [update_changelog, contains_verHeader_insert, if_true]

section ValidatorLemmas

theorem isPrefixCI_iff_map_lower (p m : List Char) :
    isPrefixCI p m = true ↔ p.map Char.toLower <+: m.map Char.toLower := by
  induction p generalizing m with
  | nil => simp [isPrefixCI]
  | cons a p ih =>
    cases m with
    | nil => simp [isPrefixCI]
    | cons c m =>
      simp only [isPrefixCI, Bool.and_eq_true, List.map_cons,
        List.cons_prefix_cons, eqCI, decide_eq_true_eq, ih]

theorem typeList_lower : ∀ t ∈ typeList, t.map Char.toLower = t := by
  decide

theorem typeList_no_prefixOf :
    ∀ t1 ∈ typeList, ∀ t2 ∈ typeList, t1.isPrefixOf t2 = true → t1 = t2 := by
  decide

theorem typeCI_unique (t1 t2 : List Char) (m : Msg) (h1 : t1 ∈ typeList)
    (h2 : t2 ∈ typeList) (hp1 : isPrefixCI t1 m = true)
    (hp2 : isPrefixCI t2 m = true) : t1 = t2 := by
  rw [isPrefixCI_iff_map_lower, typeList_lower t1 h1] at hp1
  rw [isPrefixCI_iff_map_lower, typeList_lower t2 h2] at hp2
  rcases List.prefix_or_prefix_of_prefix hp1 hp2 with h | h
  · exact typeList_no_prefixOf t1 h1 t2 h2 (List.isPrefixOf_iff_prefix.2 h)
  · exact (typeList_no_prefixOf t2 h2 t1 h1 (List.isPrefixOf_iff_prefix.2 h)).symm

theorem findTypeRest_some (m : Msg) (ts : List (List Char)) (r : Msg)
    (h : findTypeRest m ts = some r) :
    ∃ ty ∈ ts, isPrefixCI ty m = true ∧ r = m.drop ty.length := by
  induction ts with
  | nil => cases h
  | cons t ts ih =>
    rw [findTypeRest] at h
    by_cases hp : isPrefixCI t m = true
    · rw [if_pos hp] at h
      exact ⟨t, List.mem_cons_self _ _, hp, (Option.some.injEq .. ▸ h).symm⟩
    · rw [if_neg hp] at h
      obtain ⟨ty, hty, hpre, hr⟩ := ih h
      exact ⟨ty, List.mem_cons_of_mem _ hty, hpre, hr⟩

theorem findTypeRest_of_mem_aux (m : Msg) (ty : List Char)
    (ts : List (List Char)) (hty : ty ∈ ts) (hpre : isPrefixCI ty m = true)
    (huniq : ∀ t ∈ ts, isPrefixCI t m = true → t = ty) :
    findTypeRest m ts = some (m.drop ty.length) := by
  induction ts with
  | nil => cases hty
  | cons t ts ih =>
    rw [findTypeRest]
    by_cases hp : isPrefixCI t m = true
    · rw [if_pos hp, huniq t (List.mem_cons_self _ _) hp]
    · rw [if_neg hp]
      have hty2 : ty ∈ ts := by
        rcases List.mem_cons.1 hty with rfl | h2
        · exact absurd hpre hp
        · exact h2
      exact ih hty2 (fun t2 ht2 hp2 => huniq t2 (List.mem_cons_of_mem _ ht2) hp2)

theorem findTypeRest_of_mem (m : Msg) (ty : List Char) (hty : ty ∈ typeList)
    (hpre : isPrefixCI ty m = true) :
    findTypeRest m typeList = some (m.drop ty.length) :=
  findTypeRest_of_mem_aux m ty typeList hty hpre
    (fun t ht hp => typeCI_unique t ty m ht hty hp hpre)

theorem colonTail_iff (r : Msg) :
    colonTail r = true ↔
      ∃ w c rest, r = ':' :: w :: c :: rest ∧ isPySpace w = true
        ∧ c ≠ '\n' := by
  match r with
  | [] => simp [colonTail]
  | [c0] => simp [colonTail]
  | [c0, w] => simp [colonTail]
  | c0 :: w :: c :: rest =>
    simp only [colonTail, Bool.and_eq_true, decide_eq_true_eq,
      List.cons.injEq]
    constructor
    · rintro ⟨⟨h0, hw⟩, hc⟩
      exact ⟨w, c, rest, ⟨h0, rfl, rfl, rfl⟩, hw, hc⟩
    · rintro ⟨w2, c2, rest2, ⟨h0, hw2, hc2, hr2⟩, hsp, hnl⟩
      subst h0
      subst hw2
      subst hc2
      exact ⟨⟨rfl, hsp⟩, hnl⟩

theorem tailMatch_iff (r : Msg) : tailMatch r = true ↔ TailSpec r := by
  rw [tailMatch]
  cases r with
  | nil =>
    rw [if_neg (by simp)]
    simp only [colonTail_iff, TailSpec]
    constructor
    · rintro ⟨w, c, rest, h, -⟩
      cases h
    · rintro ⟨b, w, c, rest, hb, h, -⟩
      rcases hb with rfl | rfl <;> cases h
  | cons c0 r0 =>
    by_cases hb : c0 = '!'
    · subst hb
      rw [if_pos (by simp)]
      simp only [List.drop_succ_cons, List.drop_zero, colonTail_iff, TailSpec]
      constructor
      · rintro ⟨w, c, rest, rfl, hsp, hnl⟩
        exact ⟨['!'], w, c, rest, Or.inr rfl, rfl, hsp, hnl⟩
      · rintro ⟨b, w, c, rest, hbor, h, hsp, hnl⟩
        rcases hbor with rfl | rfl
        · simp only [List.nil_append, List.cons.injEq] at h
          exact absurd h.1 (by decide)
        · simp only [List.cons_append, List.nil_append, List.cons.injEq] at h
          exact ⟨w, c, rest, h.2, hsp, hnl⟩
    · rw [if_neg (by simp [hb])]
      simp only [colonTail_iff, TailSpec]
      constructor
      · rintro ⟨w, c, rest, h, hsp, hnl⟩
        exact ⟨[], w, c, rest, Or.inl rfl, by simpa using h, hsp, hnl⟩
      · rintro ⟨b, w, c, rest, hbor, h, hsp, hnl⟩
        rcases hbor with rfl | rfl
        · exact ⟨w, c, rest, by simpa using h, hsp, hnl⟩
        · simp only [List.cons_append, List.nil_append, List.cons.injEq] at h
          exact absurd h.1 hb

theorem scopeBlock_iff (r : Msg) :
    scopeBlock r = true ↔
      ∃ s r3, r = s ++ ')' :: r3 ∧ s ≠ []
        ∧ (∀ ch ∈ s, isScopeChar ch = true) ∧ TailSpec r3 := by
  constructor
  · intro h
    rw [scopeBlock] at h
    cases hd : r.dropWhile isScopeChar with
    | nil => rw [hd] at h; cases h
    | cons d r3 =>
      rw [hd] at h
      simp only [Bool.and_eq_true, Bool.not_eq_true', List.isEmpty_eq_false,
        decide_eq_true_eq] at h
      obtain ⟨⟨hne, hdp⟩, htl⟩ := h
      subst hdp
      exact ⟨r.takeWhile isScopeChar, r3,
        by rw [← hd, List.takeWhile_append_dropWhile], hne,
        fun ch hch => List.mem_takeWhile_imp hch, (tailMatch_iff r3).1 htl⟩
  · rintro ⟨s, r3, rfl, hne, hs, htl⟩
    obtain ⟨h1, h2⟩ :=
      takeWhile_dropWhile_append_not isScopeChar s ')' r3 hs (by decide)
    rw [scopeBlock, h2, h1]
    simp only [Bool.and_eq_true, Bool.not_eq_true', List.isEmpty_eq_false,
      decide_eq_true_eq]
    exact ⟨⟨hne, trivial⟩, (tailMatch_iff r3).2 htl⟩

theorem tailSpec_head_ne_paren (r : Msg) (h : TailSpec r) :
    ∃ c r2, r = c :: r2 ∧ c ≠ '(' := by
  obtain ⟨b, w, c, rest, hbor, hr, -, -⟩ := h
  rcases hbor with rfl | rfl
  · exact ⟨':', w :: c :: rest, by simpa using hr, by decide⟩
  · exact ⟨'!', ':' :: w :: c :: rest, by simpa using hr, by decide⟩

theorem convHeader_iff (m : Msg) : convHeader m = true ↔ ConvHeaderSpec m := by
  constructor
  · intro h
    rw [convHeader] at h
    cases hf : findTypeRest m typeList with
    | none => rw [hf] at h; cases h
    | some rest =>
      rw [hf] at h
      obtain ⟨ty, hty, hpre, hr⟩ := findTypeRest_some m typeList rest hf
      subst hr
      refine ⟨ty, hty, hpre, ?_⟩
      cases hd : m.drop ty.length with
      | nil => rw [hd] at h; cases h
      | cons c r =>
        rw [hd] at h
        change (if c = '(' then scopeBlock r else tailMatch (c :: r))
          = true at h
        by_cases hc : c = '('
        · rw [if_pos hc] at h
          obtain ⟨s, r3, hdec, hne, hs, htl⟩ := (scopeBlock_iff r).1 h
          subst hc
          exact Or.inr ⟨s, r3, by rw [hdec], hne, hs, htl⟩
        · rw [if_neg hc] at h
          exact Or.inl ((tailMatch_iff _).1 h)
  · rintro ⟨ty, hty, hpre, hdisj⟩
    rw [convHeader, findTypeRest_of_mem m ty hty hpre]
    rcases hdisj with htl | ⟨s, r3, hdec, hne, hs, htl⟩
    · obtain ⟨c, r2, hr, hcp⟩ := tailSpec_head_ne_paren _ htl
      rw [hr]
      rw [hr] at htl
      change (if c = '(' then scopeBlock r2 else tailMatch (c :: r2)) = true
      rw [if_neg hcp]
      exact (tailMatch_iff _).2 htl
    · rw [hdec]
      change (if ('(' : Char) = '(' then scopeBlock (s ++ ')' :: r3)
              else tailMatch ('(' :: (s ++ ')' :: r3))) = true
      rw [if_pos rfl]
      exact (scopeBlock_iff _).2 ⟨s, r3, rfl, hne, hs, htl⟩

end ValidatorLemmas

/-- Claim C5, counterexample: the validator regex requires `:\s` — a colon
followed by any whitespace character — not a colon followed by a space, so
`feat:<TAB>add` is accepted as conventional although under the claim's
wording (colon and a space) it should be invalid. -/
theorem c5_counterexample :
    is_conventional_commit ("feat:\tadd".toList) = (true, Reason.conventional)
      ∧ claimConvHeader ("feat:\tadd".toList) = false := by
  decide

/-- Claim C5 (amended): a message starting with `Merge ` is (true, merge); a
non-merge message starting with `chore: bump version` is (true, automated);
otherwise the message is (true, conventional) exactly when it matches, case
insensitively, a type from {feat, fix, docs, style, refactor, perf, test,
chore, build, ci}, an optional parenthesized scope of one or more
letters/digits/hyphens/underscores (case-insensitive), an optional `!`, then
a colon and one whitespace character (the regex class `\s`, not only a
space) followed by at least one non-newline character; every other message
is (false, invalid format). -/
theorem c5_validator_cases (m : Msg) :
    (("Merge ".toList).isPrefixOf m = true →
      is_conventional_commit m = (true, Reason.merge))
    ∧ (("Merge ".toList).isPrefixOf m = false →
        ("chore: bump version".toList).isPrefixOf m = true →
        is_conventional_commit m = (true, Reason.automated))
    ∧ (("Merge ".toList).isPrefixOf m = false →
        ("chore: bump version".toList).isPrefixOf m = false →
        (is_conventional_commit m = (true, Reason.conventional)
            ↔ ConvHeaderSpec m)
          ∧ (¬ ConvHeaderSpec m →
              is_conventional_commit m = (false, Reason.invalidFormat))) := by
  refine ⟨?_, ?_, ?_⟩
  · intro h
    simp only [is_conventional_commit, h, if_true]
  · intro h1 h2
    simp only [is_conventional_commit, h1, Bool.false_eq_true, if_false, h2,
      if_true]
  · intro h1 h2
    have hcc : is_conventional_commit m
        = (if convHeader m then (true, Reason.conventional)
           else (false, Reason.invalidFormat)) := by
      simp only [is_conventional_commit, h1, h2, Bool.false_eq_true, if_false]
    cases hcv : convHeader m with
    | true =>
      rw [hcc, if_pos hcv]
      exact ⟨iff_of_true rfl ((convHeader_iff m).1 hcv),
        fun hn => absurd ((convHeader_iff m).1 hcv) hn⟩
    | false =>
      rw [hcc, if_neg (by rw [hcv]; exact Bool.false_ne_true)]
      constructor
      · constructor
        · intro hx
          injection hx with hb _
          cases hb
        · intro hs
          exact absurd ((convHeader_iff m).2 hs) (by rw [hcv]; exact Bool.false_ne_true)
      · intro _
        rfl

/-- Witness for C5's theorem: the merge rule and a conventional header. -/
theorem c5_witness :
    is_conventional_commit ("Merge branch x".toList) = (true, Reason.merge)
      ∧ is_conventional_commit ("feat(ui): add toggle".toList)
          = (true, Reason.conventional) :=
  ⟨(c5_validator_cases ("Merge branch x".toList)).1 (by decide),
   ((c5_validator_cases ("feat(ui): add toggle".toList)).2.2 (by decide)
      (by decide)).1.2
     ⟨"feat".toList, by decide, by decide,
      Or.inr ⟨"ui".toList, ": add toggle".toList, by decide, by decide,
        by decide,
        ⟨[], ' ', 'a', "dd toggle".toList, Or.inl rfl, by decide, by decide,
         by decide⟩⟩⟩⟩

/-- Witness for C10's theorem: a changelog already carrying the header is
left unchanged. -/
theorem c10_witness :
    update_changelog ("3.8".toList) ("minor".toList) ("2025-06-01".toList)
        (some ("# Log\n---\n\n## [3.8] - 2025-05-01\nold".toList))
      = some ("# Log\n---\n\n## [3.8] - 2025-05-01\nold".toList) :=
  (c10_changelog_idempotent ("3.8".toList) ("minor".toList)
    ("2025-06-01".toList)
    (some ("# Log\n---\n\n## [3.8] - 2025-05-01\nold".toList))).1
    ("# Log\n---\n\n## [3.8] - 2025-05-01\nold".toList) rfl (by decide)
